import Mathlib

/-!
Verification of the Image_Deblurring pipeline.

Shallow embedding of the numerical core of the repository:
  - `point_spread_functions.py` : `reshape_psf`, `gaussian`, `defocus`
  - `image_noise.py`            : `gaussian_noise`
  - `deblurring.py`             : `apply_psf`, the noise-injection step and the
                                  SVD-based inversion step of `image_deblurring`

Real-valued samples are modelled with `ℝ` (the Python code computes with
floats; exact real arithmetic is the idealisation of that).  Python runtime
errors (ZeroDivisionError on `1/0` and `1/0.0`, numpy's ValueError on
`np.zeros(n)` for `n < 0`, numpy's LinAlgError on inverting an exactly
singular matrix) are modelled with an `Except` error monad.  numpy's global
random generator is modelled as an oracle stream `g : ℕ → ℝ` of standard
normal draws, consumed in order: `np.random.normal(mean, sigma, (H, W))`
returns the field `mean + sigma * g (off + i*W + j)` where `off` counts the
draws consumed by earlier calls.
-/

set_option autoImplicit false

namespace Deblur

/-- Python / numpy runtime errors that the embedded code can raise. -/
inductive PyErr where
  | valueError : PyErr
  | zeroDivision : PyErr
  | linAlgSingular : PyErr
deriving DecidableEq

open scoped Classical in
/-- Python division `a / b`: raises `ZeroDivisionError` when `b = 0`
(Python raises for both integer `1/0` and float `1/0.0`). -/
noncomputable def pydiv (a b : ℝ) : Except PyErr ℝ :=
  if b = 0 then .error .zeroDivision else .ok (a / b)

/-- The un-normalized Gaussian sample of `gaussian` (point_spread_functions.py
lines 62–69): `res[x] = a * exp(-(x - x_0)^2 / b)` with `a = 1/(2π σ²)`,
`b = 2σ²`, `x_0 = n // 2`. -/
noncomputable def gaussPoint (n : ℕ) (sigma : ℝ) (x : ℕ) : ℝ :=
  (1 / (2 * Real.pi * sigma ^ 2)) *
    Real.exp (-(((x : ℝ) - ((n / 2 : ℕ) : ℝ)) ^ 2) / (2 * sigma ^ 2))

/-- The 1-D kernel part of `gaussian(n, sigma, image_size)`
(point_spread_functions.py lines 60–73), before `reshape_psf`.

`np.zeros(n)` raises ValueError for `n < 0`.  `a = 1 / (2 * math.pi *
pow(sigma, 2))` raises ZeroDivisionError when `sigma = 0`.  The loop fills
`res[x] = a * exp(-(x - x_0)^2 / b)` for `x` in `range(n)` and accumulates
`matr_sum`; since `res[x]` never raises once `a` was computed (`b = 2σ² ≠ 0`
exactly when the division for `a` succeeded), the per-iteration arithmetic is
plain.  `normalize = 1 / matr_sum` raises ZeroDivisionError when the sum is
zero (e.g. `n = 0`). -/
noncomputable def gaussianKernel (n : ℤ) (sigma : ℝ) : Except PyErr (List ℝ) :=
  if n < 0 then .error .valueError else
  match pydiv 1 (2 * Real.pi * sigma ^ 2) with
  | .error e => .error e
  | .ok _ =>
    let res := (List.range n.toNat).map (gaussPoint n.toNat sigma)
    match pydiv 1 res.sum with
    | .error e => .error e
    | .ok normalize => .ok (res.map (fun v => v * normalize))

/-- The 1-D kernel part of `defocus(n, r, image_size)`
(point_spread_functions.py lines 90–103), before `reshape_psf`.

`r` is an `int` at runtime (the config reader parses `psf_param` with
`getint`).  `elem = 1 / (math.pi * pow(r, 2))` raises ZeroDivisionError when
`r = 0`.  The loop sets `res[i] = elem` when `(i - mid)² ≤ r²` and adds it to
`matr_sum`; the sum of the whole `res` array equals `matr_sum` since the
remaining entries are the zeros of `np.zeros(n)`.  `normalize = 1 / matr_sum`
raises ZeroDivisionError when no index satisfied the condition. -/
noncomputable def defocusKernel (n : ℤ) (r : ℤ) : Except PyErr (List ℝ) :=
  if n < 0 then .error .valueError else
  match pydiv 1 (Real.pi * (r : ℝ) ^ 2) with
  | .error e => .error e
  | .ok elem =>
    let mid : ℕ := n.toNat / 2
    let res := (List.range n.toNat).map
      (fun i => if ((i : ℤ) - (mid : ℤ)) ^ 2 ≤ r ^ 2 then elem else 0)
    match pydiv 1 res.sum with
    | .error e => .error e
    | .ok normalize => .ok (res.map (fun v => v * normalize))

/-- Every element of a nonempty list of positive reals sums positively. -/
theorem list_sum_pos : ∀ (l : List ℝ), l ≠ [] → (∀ x ∈ l, 0 < x) → 0 < l.sum := by
  intro l
  induction l with
  | nil => intro h; exact absurd rfl h
  | cons a t ih =>
    intro _ hpos
    rw [List.sum_cons]
    rcases t with _ | ⟨b, t⟩
    · simpa using hpos a (by simp)
    · have ht : 0 < (b :: t).sum :=
        ih (by simp) (fun x hx => hpos x (List.mem_cons_of_mem a hx))
      have ha : 0 < a := hpos a (by simp)
      linarith

/-- The sample `gaussPoint` is strictly positive whenever `sigma ≠ 0`. -/
theorem gaussPoint_pos (n : ℕ) (sigma : ℝ) (x : ℕ) (hs : sigma ≠ 0) :
    0 < gaussPoint n sigma x := by
  unfold gaussPoint
  have hs2 : 0 < sigma ^ 2 := by positivity
  have ha : 0 < 1 / (2 * Real.pi * sigma ^ 2) := by
    have := Real.pi_pos
    positivity
  exact mul_pos ha (Real.exp_pos _)

theorem pydiv_ok (a b : ℝ) (hb : b ≠ 0) : pydiv a b = .ok (a / b) := by
  unfold pydiv
  rw [if_neg hb]

theorem pydiv_zero (a : ℝ) : pydiv a 0 = .error .zeroDivision := by
  unfold pydiv
  rw [if_pos rfl]

/-- Unfolding of `gaussianKernel` on a valid input: for `0 ≤ n` and
`sigma ≠ 0` with a nonzero raw sum, the kernel is the raw Gaussian samples
scaled by the reciprocal of their sum. -/
theorem gaussianKernel_ok (n : ℤ) (sigma : ℝ) (hn : 0 ≤ n) (hs : sigma ≠ 0)
    (hsum : ((List.range n.toNat).map (gaussPoint n.toNat sigma)).sum ≠ 0) :
    gaussianKernel n sigma =
      .ok (((List.range n.toNat).map (gaussPoint n.toNat sigma)).map
        (fun v => v * (1 / ((List.range n.toNat).map (gaussPoint n.toNat sigma)).sum))) := by
  have hden : 2 * Real.pi * sigma ^ 2 ≠ 0 := by
    have hpi := Real.pi_pos
    positivity
  unfold gaussianKernel
  rw [if_neg (not_lt.mpr hn), pydiv_ok 1 _ hden]
  dsimp only
  rw [pydiv_ok 1 _ hsum]

/-- The raw (un-normalized) Gaussian samples have a strictly positive sum
whenever there is at least one sample and `sigma ≠ 0`. -/
theorem gaussRawSum_pos (m : ℕ) (sigma : ℝ) (hm : 0 < m) (hs : sigma ≠ 0) :
    0 < ((List.range m).map (gaussPoint m sigma)).sum := by
  apply list_sum_pos
  · simp [List.range_eq_nil]
    omega
  · intro x hx
    rw [List.mem_map] at hx
    obtain ⟨y, _, rfl⟩ := hx
    exact gaussPoint_pos _ _ _ hs

/-- C3: for every `n > 0` and `sigma > 0`, the 1-D Gaussian kernel samples
`f(x) = (1/(2π·σ²)) · exp(−(x−x0)²/(2σ²))` at `x = 0..n−1` with center
`x0 = n // 2` (the 2-D normalization constant `1/(2πσ²)`), and after
normalization its `n` samples sum to exactly 1: the kernel is `ok`, has `n`
samples, they sum to 1, and sample `x` is the sampled density `gaussPoint`
divided by the sum of all sampled densities. -/
theorem gaussianKernel_normalized (n : ℤ) (sigma : ℝ) (hn : 0 < n) (hs : 0 < sigma) :
    ∃ l, gaussianKernel n sigma = .ok l ∧
      l.length = n.toNat ∧
      l.sum = 1 ∧
      ∀ x : ℕ, x < n.toNat →
        l.getD x 0 = gaussPoint n.toNat sigma x /
          ((List.range n.toNat).map (gaussPoint n.toNat sigma)).sum := by
  set res := (List.range n.toNat).map (gaussPoint n.toNat sigma) with hres
  have hne : res ≠ [] := by
    have : 0 < n.toNat := by omega
    simp [hres, List.range_eq_nil]
    omega
  have hpos : ∀ x ∈ res, 0 < x := by
    intro x hx
    rw [hres, List.mem_map] at hx
    obtain ⟨y, _, rfl⟩ := hx
    exact gaussPoint_pos _ _ _ (ne_of_gt hs)
  have hsumpos : 0 < res.sum := list_sum_pos res hne hpos
  refine ⟨res.map (fun v => v * (1 / res.sum)), ?_, ?_, ?_, ?_⟩
  · exact gaussianKernel_ok n sigma (le_of_lt hn) (ne_of_gt hs) (ne_of_gt hsumpos)
  · simp [hres]
  · have : (res.map (fun v => v * (1 / res.sum))).sum = res.sum * (1 / res.sum) := by
      have h := List.sum_map_mul_right res (fun v : ℝ => v) (1 / res.sum)
      simpa using h
    rw [this]
    field_simp
  · intro x hx
    have hxres : x < res.length := by
      rw [hres, List.length_map, List.length_range]; exact hx
    have hxlen : x < (res.map (fun v => v * (1 / res.sum))).length := by
      rw [List.length_map]; exact hxres
    rw [List.getD_eq_getElem _ _ hxlen]
    rw [List.getElem_map]
    have hval : res[x] = gaussPoint n.toNat sigma x := by
      simp only [hres, List.getElem_map, List.getElem_range]
    rw [hval]
    ring

/-- Witness for C3 at `n = 1`, `sigma = 1`. -/
theorem gaussianKernel_normalized_witness :
    ∃ l, gaussianKernel 1 1 = .ok l ∧ l.length = (1 : ℤ).toNat ∧ l.sum = 1 ∧
      ∀ x : ℕ, x < (1 : ℤ).toNat →
        l.getD x 0 = gaussPoint (1 : ℤ).toNat 1 x /
          ((List.range (1 : ℤ).toNat).map (gaussPoint (1 : ℤ).toNat 1)).sum :=
  gaussianKernel_normalized 1 1 (by norm_num) (by norm_num)

/-- Running `gaussian(3, -1, ...)` computes its kernel without raising: the kernel is
`ok` (the source has no validation of `sigma`; `σ²` makes the sign
irrelevant). -/
theorem gaussianKernel_neg_sigma_ok : ∃ l, gaussianKernel 3 (-1) = .ok l :=
  ⟨_, gaussianKernel_ok 3 (-1) (by norm_num) (by norm_num)
    (ne_of_gt (gaussRawSum_pos ((3 : ℤ).toNat) (-1) (by norm_num) (by norm_num)))⟩

/-- C4 counterexample: the claim says every input with `param ≤ 0` makes both
synthesizer variants fail with an `InvalidParameter` error before computing;
but `gaussian` with `n = 3`, `sigma = -1` succeeds and returns a kernel — no
error of any kind is raised. -/
theorem gaussian_no_validation_counterexample :
    (gaussianKernel 3 (-1)).isOk = true := by
  obtain ⟨l, hl⟩ := gaussianKernel_neg_sigma_ok
  rw [hl]
  rfl

/-- C4 (amended): the synthesizers perform no `InvalidParameter` validation.
`gaussian` with `sigma = -1` (param ≤ 0) computes a kernel successfully;
`n = 0` reaches the normalization `1 / matr_sum` with a zero sum and raises
ZeroDivisionError; `sigma = 0` and defocus `r = 0` raise ZeroDivisionError at
the density-constant division; `n < 0` raises numpy's ValueError in
`np.zeros(n)`; the degenerate defocus normalization (`n = 0`) likewise
surfaces as ZeroDivisionError — NaN/Inf is never propagated, but none of
these failures is an `InvalidParameter` error. -/
theorem kernel_validation_amended :
    (gaussianKernel 3 (-1)).isOk = true ∧
    gaussianKernel 0 1 = .error .zeroDivision ∧
    gaussianKernel (-1) 1 = .error .valueError ∧
    defocusKernel 5 0 = .error .zeroDivision ∧
    defocusKernel 0 2 = .error .zeroDivision ∧
    defocusKernel (-1) 2 = .error .valueError := by
  refine ⟨?_, ?_, ?_, ?_, ?_, ?_⟩
  · obtain ⟨l, hl⟩ := gaussianKernel_neg_sigma_ok
    rw [hl]
    rfl
  · unfold gaussianKernel
    rw [if_neg (by norm_num)]
    rw [pydiv_ok 1 _ (by have := Real.pi_ne_zero; positivity)]
    dsimp only
    norm_num [pydiv_zero]
  · unfold gaussianKernel
    rw [if_pos (by norm_num)]
  · unfold defocusKernel
    rw [if_neg (by norm_num)]
    have h0 : Real.pi * (((0 : ℤ) : ℝ)) ^ 2 = 0 := by norm_num
    rw [h0, pydiv_zero]
  · unfold defocusKernel
    rw [if_neg (by norm_num)]
    rw [pydiv_ok 1 _ (by push_cast; have := Real.pi_ne_zero; positivity)]
    dsimp only
    norm_num [pydiv_zero]
  · unfold defocusKernel
    rw [if_pos (by norm_num)]

/-! ### Operator Builder: `reshape_psf` (point_spread_functions.py lines 24–44)

The Python function allocates `a = np.zeros((image_size, image_size))` and
runs

    for i in range(image_size):
        for j in range(psf.shape[0]):
            if i + j - mid in range(image_size):
                a[i][i+j - mid] = psf[j]

`i + j - mid` is evaluated in `ℤ` (it can be negative); membership in
`range(image_size)` means `0 ≤ i + j - mid < image_size`.  The array is
modelled as a total function `ℤ → ℤ → ℝ` that is zero outside the written
cells, and each in-place write as a pointwise update. -/

/-- One in-place write `a[r][c] = v`. -/
def writeCell (a : ℤ → ℤ → ℝ) (r c : ℤ) (v : ℝ) : ℤ → ℤ → ℝ :=
  fun r' c' => if r' = r ∧ c' = c then v else a r' c'

/-- The center index `mid = psf.shape[0] // 2`. -/
def midOf (psf : List ℝ) : ℕ := psf.length / 2

/-- The column `i + j - mid` targeted by the write for row `i`, tap `j`. -/
def tgt (psf : List ℝ) (i j : ℕ) : ℤ := (i : ℤ) + (j : ℤ) - (midOf psf : ℤ)

/-- Body of the inner loop: the guarded write for row `i`, tap `j`. -/
def rowStep (psf : List ℝ) (S : ℕ) (i : ℕ) (a : ℤ → ℤ → ℝ) (j : ℕ) : ℤ → ℤ → ℝ :=
  if 0 ≤ tgt psf i j ∧ tgt psf i j < (S : ℤ) then
    writeCell a (i : ℤ) (tgt psf i j) (psf.getD j 0)
  else a

/-- The inner loop over an explicit list of tap indices. -/
def rowPassAux (psf : List ℝ) (S : ℕ) (i : ℕ) (L : List ℕ) (a : ℤ → ℤ → ℝ) :
    ℤ → ℤ → ℝ :=
  L.foldl (rowStep psf S i) a

/-- The inner loop `for j in range(psf.shape[0])` for row `i`. -/
def rowPass (psf : List ℝ) (S : ℕ) (i : ℕ) (a : ℤ → ℤ → ℝ) : ℤ → ℤ → ℝ :=
  rowPassAux psf S i (List.range psf.length) a

/-- The outer loop over an explicit list of row indices. -/
def rowsAux (psf : List ℝ) (S : ℕ) (R : List ℕ) (a : ℤ → ℤ → ℝ) : ℤ → ℤ → ℝ :=
  R.foldl (fun acc i => rowPass psf S i acc) a

/-- The builder `reshape_psf(psf, image_size)`: run the double loop on the zero array. -/
def reshape_psf (psf : List ℝ) (S : ℕ) : ℤ → ℤ → ℝ :=
  rowsAux psf S (List.range S) (fun _ _ => 0)

theorem writeCell_same (a : ℤ → ℤ → ℝ) (r c : ℤ) (v : ℝ) :
    writeCell a r c v r c = v := by
  simp [writeCell]

theorem writeCell_other (a : ℤ → ℤ → ℝ) (r c : ℤ) (v : ℝ) (r' c' : ℤ)
    (h : ¬(r' = r ∧ c' = c)) : writeCell a r c v r' c' = a r' c' := by
  simp only [writeCell, if_neg h]

/-- The inner loop never touches rows other than `i`. -/
theorem rowPassAux_other_row (psf : List ℝ) (S : ℕ) (i : ℕ) (L : List ℕ) :
    ∀ (a : ℤ → ℤ → ℝ) (r c : ℤ), r ≠ (i : ℤ) →
      rowPassAux psf S i L a r c = a r c := by
  induction L with
  | nil => intro a r c _; rfl
  | cons x t ih =>
    intro a r c hr
    show rowPassAux psf S i t (rowStep psf S i a x) r c = a r c
    rw [ih _ r c hr]
    unfold rowStep
    split
    · exact writeCell_other _ _ _ _ _ _ (fun hc => hr hc.1)
    · rfl

/-- The inner loop leaves cell `(i, c)` alone when no listed tap writes
there. -/
theorem rowPassAux_miss (psf : List ℝ) (S : ℕ) (i : ℕ) (L : List ℕ) :
    ∀ (a : ℤ → ℤ → ℝ) (c : ℤ),
      (∀ j ∈ L, ¬(0 ≤ tgt psf i j ∧ tgt psf i j < (S : ℤ) ∧ tgt psf i j = c)) →
      rowPassAux psf S i L a (i : ℤ) c = a (i : ℤ) c := by
  induction L with
  | nil => intro a c _; rfl
  | cons x t ih =>
    intro a c hmiss
    show rowPassAux psf S i t (rowStep psf S i a x) (i : ℤ) c = a (i : ℤ) c
    rw [ih _ c (fun j hj => hmiss j (List.mem_cons_of_mem x hj))]
    unfold rowStep
    split
    · rename_i hin
      refine writeCell_other _ _ _ _ _ _ (fun hc => ?_)
      exact hmiss x (List.mem_cons_self x t) ⟨hin.1, hin.2, hc.2.symm⟩
    · rfl

/-- The inner loop writes `psf[j]` at cell `(i, i+j-mid)` when tap `j` is
listed, its target is in range, and no other listed tap shares its target. -/
theorem rowPassAux_hit (psf : List ℝ) (S : ℕ) (i : ℕ) (L : List ℕ) :
    ∀ (a : ℤ → ℤ → ℝ) (j : ℕ), L.Nodup → j ∈ L →
      0 ≤ tgt psf i j → tgt psf i j < (S : ℤ) →
      (∀ j' ∈ L, tgt psf i j' = tgt psf i j → j' = j) →
      rowPassAux psf S i L a (i : ℤ) (tgt psf i j) = psf.getD j 0 := by
  induction L with
  | nil => intro a j _ hj; exact absurd hj (List.not_mem_nil j)
  | cons x t ih =>
    intro a j hnd hj h0 hS huniq
    rcases List.nodup_cons.mp hnd with ⟨hxt, hndt⟩
    by_cases hjt : j ∈ t
    · exact ih _ j hndt hjt h0 hS
        (fun j' hj' he => huniq j' (List.mem_cons_of_mem x hj') he)
    · have hjx : j = x := by
        rcases List.mem_cons.mp hj with h | h
        · exact h
        · exact absurd h hjt
      subst hjx
      show rowPassAux psf S i t (rowStep psf S i a j) (i : ℤ) (tgt psf i j)
        = psf.getD j 0
      have hstep : rowStep psf S i a j (i : ℤ) (tgt psf i j) = psf.getD j 0 := by
        unfold rowStep
        rw [if_pos ⟨h0, hS⟩]
        exact writeCell_same _ _ _ _
      rw [rowPassAux_miss psf S i t _ _ ?_, hstep]
      intro j' hj' hcon
      have : j' = j := huniq j' (List.mem_cons_of_mem j hj') hcon.2.2
      exact hxt (this ▸ hj')

/-- The full inner loop writes `psf[j]` at `(i, i+j-mid)` for every in-range
tap `j` (targets are distinct across taps of one row). -/
theorem rowPass_hit (psf : List ℝ) (S : ℕ) (i : ℕ) (a : ℤ → ℤ → ℝ) (j : ℕ)
    (hj : j < psf.length) (h0 : 0 ≤ tgt psf i j) (hS : tgt psf i j < (S : ℤ)) :
    rowPass psf S i a (i : ℤ) (tgt psf i j) = psf.getD j 0 :=
  rowPassAux_hit psf S i (List.range psf.length) a j (List.nodup_range psf.length)
    (List.mem_range.mpr hj) h0 hS
    (fun j' _ he => by unfold tgt at he; omega)

/-- The full inner loop leaves `(i, c)` alone when no tap writes there. -/
theorem rowPass_miss (psf : List ℝ) (S : ℕ) (i : ℕ) (a : ℤ → ℤ → ℝ) (c : ℤ)
    (h : ∀ j : ℕ, j < psf.length →
      ¬(0 ≤ tgt psf i j ∧ tgt psf i j < (S : ℤ) ∧ tgt psf i j = c)) :
    rowPass psf S i a (i : ℤ) c = a (i : ℤ) c :=
  rowPassAux_miss psf S i (List.range psf.length) a c
    (fun j hj => h j (List.mem_range.mp hj))

/-- The outer loop never touches a row not listed in `R`. -/
theorem rowsAux_other (psf : List ℝ) (S : ℕ) (R : List ℕ) :
    ∀ (a : ℤ → ℤ → ℝ) (r c : ℤ), (∀ i ∈ R, (i : ℤ) ≠ r) →
      rowsAux psf S R a r c = a r c := by
  induction R with
  | nil => intro a r c _; rfl
  | cons x t ih =>
    intro a r c hR
    show rowsAux psf S t (rowPass psf S x a) r c = a r c
    rw [ih _ r c (fun i hi => hR i (List.mem_cons_of_mem x hi))]
    exact rowPassAux_other_row psf S x _ a r c
      (fun he => hR x (List.mem_cons_self x t) he.symm)

/-- The outer loop writes `psf[j]` at `(i, i+j-mid)` once row `i` is listed
and tap `j` is in range. -/
theorem rowsAux_hit (psf : List ℝ) (S : ℕ) (R : List ℕ) :
    ∀ (a : ℤ → ℤ → ℝ) (i j : ℕ), i ∈ R → j < psf.length →
      0 ≤ tgt psf i j → tgt psf i j < (S : ℤ) →
      rowsAux psf S R a (i : ℤ) (tgt psf i j) = psf.getD j 0 := by
  induction R with
  | nil => intro a i j hi; exact absurd hi (List.not_mem_nil i)
  | cons x t ih =>
    intro a i j hi hj h0 hS
    by_cases hit : i ∈ t
    · exact ih _ i j hit hj h0 hS
    · have hix : i = x := by
        rcases List.mem_cons.mp hi with h | h
        · exact h
        · exact absurd h hit
      subst hix
      show rowsAux psf S t (rowPass psf S i a) (i : ℤ) (tgt psf i j)
        = psf.getD j 0
      rw [rowsAux_other psf S t _ _ _
        (fun i' hi' he => hit (by rwa [Nat.cast_inj.mp he] at hi'))]
      exact rowPass_hit psf S i a j hj h0 hS

/-- The outer loop leaves `(i, c)` alone when no tap of row `i` writes at
column `c`. -/
theorem rowsAux_miss (psf : List ℝ) (S : ℕ) (R : List ℕ) :
    ∀ (a : ℤ → ℤ → ℝ) (i : ℕ) (c : ℤ),
      (∀ j : ℕ, j < psf.length →
        ¬(0 ≤ tgt psf i j ∧ tgt psf i j < (S : ℤ) ∧ tgt psf i j = c)) →
      rowsAux psf S R a (i : ℤ) c = a (i : ℤ) c := by
  induction R with
  | nil => intro a i c _; rfl
  | cons x t ih =>
    intro a i c hmiss
    show rowsAux psf S t (rowPass psf S x a) (i : ℤ) c = a (i : ℤ) c
    rw [ih _ i c hmiss]
    by_cases hxi : x = i
    · subst hxi
      exact rowPass_miss psf S x a c hmiss
    · exact rowPassAux_other_row psf S x _ a _ c
        (fun he => hxi ((Nat.cast_inj.mp he).symm))

/-- A nonzero entry of the built operator comes from an in-range tap. -/
theorem reshape_psf_nonzero_exists (psf : List ℝ) (S : ℕ) (i : ℕ) (c : ℤ)
    (hne : reshape_psf psf S i c ≠ 0) :
    ∃ j : ℕ, j < psf.length ∧ 0 ≤ tgt psf i j ∧ tgt psf i j < (S : ℤ) ∧
      tgt psf i j = c := by
  by_contra hcon
  push_neg at hcon
  apply hne
  unfold reshape_psf
  rw [rowsAux_miss psf S (List.range S) _ i c ?_]
  intro j hj hand
  exact absurd hand.2.2 (hcon j hj hand.1 hand.2.1)

open scoped Classical in
/-- C2: for every kernel of length `k` and image size `S` with `k ≤ S`, with
`mid = k // 2`, the built operator satisfies
`Operator[i][i+j−mid] = kernel[j]` exactly when `0 ≤ i+j−mid < S` (for
`i < S`, `j < k`), every other entry is zero, row `i`'s nonzero columns lie
in `[max(0, i−mid), min(S, i−mid+k))`, and each row has at most `k` nonzero
entries. -/
theorem reshape_psf_characterization (psf : List ℝ) (S : ℕ) (hk : psf.length ≤ S) :
    (∀ i j : ℕ, i < S → j < psf.length →
        0 ≤ tgt psf i j → tgt psf i j < (S : ℤ) →
        reshape_psf psf S i (tgt psf i j) = psf.getD j 0) ∧
    (∀ (i : ℕ) (c : ℤ), i < S →
        (∀ j : ℕ, j < psf.length → tgt psf i j ≠ c) →
        reshape_psf psf S i c = 0) ∧
    (∀ (i : ℕ) (c : ℤ), i < S → reshape_psf psf S i c ≠ 0 →
        max 0 ((i : ℤ) - (midOf psf : ℤ)) ≤ c ∧
        c < min (S : ℤ) ((i : ℤ) - (midOf psf : ℤ) + psf.length)) ∧
    (∀ i : ℕ, i < S →
        ((Finset.range S).filter
          (fun c : ℕ => reshape_psf psf S i c ≠ 0)).card ≤ psf.length) := by
  refine ⟨?_, ?_, ?_, ?_⟩
  · intro i j hi hj h0 hS
    unfold reshape_psf
    exact rowsAux_hit psf S (List.range S) _ i j (List.mem_range.mpr hi) hj h0 hS
  · intro i c _ hnot
    unfold reshape_psf
    rw [rowsAux_miss psf S (List.range S) _ i c
      (fun j hj hand => hnot j hj hand.2.2)]
  · intro i c _ hne
    obtain ⟨j, hj, h0, hS, he⟩ := reshape_psf_nonzero_exists psf S i c hne
    rw [he] at h0 hS
    unfold tgt at he
    constructor
    · rw [max_le_iff]
      unfold midOf at he ⊢
      omega
    · rw [lt_min_iff]
      unfold midOf at he ⊢
      omega
  · intro i _
    have hs : Set.SurjOn (fun j : ℕ => (tgt psf i j).toNat)
        (Finset.range psf.length)
        ((Finset.range S).filter (fun c : ℕ => reshape_psf psf S i c ≠ 0)) := by
      intro c hc
      simp only [Finset.coe_filter, Set.mem_setOf_eq, Finset.mem_range] at hc
      obtain ⟨j, hj, h0, hS, he⟩ := reshape_psf_nonzero_exists psf S i c hc.2
      refine ⟨j, by simpa using hj, ?_⟩
      simp only
      omega
    simpa using Finset.card_le_card_of_surjOn _ hs

/-- Witness for C2 at `psf = [1, 2]`, `S = 3`. -/
theorem reshape_psf_characterization_witness :
    (∀ i j : ℕ, i < 3 → j < [(1 : ℝ), 2].length →
        0 ≤ tgt [(1 : ℝ), 2] i j → tgt [(1 : ℝ), 2] i j < ((3 : ℕ) : ℤ) →
        reshape_psf [(1 : ℝ), 2] 3 i (tgt [(1 : ℝ), 2] i j) = [(1 : ℝ), 2].getD j 0) ∧
    (∀ (i : ℕ) (c : ℤ), i < 3 →
        (∀ j : ℕ, j < [(1 : ℝ), 2].length → tgt [(1 : ℝ), 2] i j ≠ c) →
        reshape_psf [(1 : ℝ), 2] 3 i c = 0) ∧
    (∀ (i : ℕ) (c : ℤ), i < 3 → reshape_psf [(1 : ℝ), 2] 3 i c ≠ 0 →
        max 0 ((i : ℤ) - (midOf [(1 : ℝ), 2] : ℤ)) ≤ c ∧
        c < min ((3 : ℕ) : ℤ) ((i : ℤ) - (midOf [(1 : ℝ), 2] : ℤ) + [(1 : ℝ), 2].length)) ∧
    (∀ i : ℕ, i < 3 →
        ((Finset.range 3).filter
          (fun c : ℕ => reshape_psf [(1 : ℝ), 2] 3 i c ≠ 0)).card ≤ [(1 : ℝ), 2].length) :=
  reshape_psf_characterization [(1 : ℝ), 2] 3 (by norm_num)

/-! ### Blur Operator and Deconvolver (deblurring.py, `apply_psf` lines
106–126 and `image_deblurring` lines 162–172)

Images are `S × W` real matrices, grayscale or 3-channel color, matching the
two branches of `apply_psf` on `config["color"]`.  `np.matmul` on 2-D arrays
is the standard matrix product. -/

/-- A pipeline image: grayscale 2-D or color with 3 channels. -/
inductive Image (S W : ℕ) where
  | gray (m : Matrix (Fin S) (Fin W) ℝ) : Image S W
  | rgb (ch : Fin 3 → Matrix (Fin S) (Fin W) ℝ) : Image S W

/-- Channel accessor (on grayscale it returns the single plane). -/
def Image.channel {S W : ℕ} : Image S W → Fin 3 → Matrix (Fin S) (Fin W) ℝ
  | .gray m, _ => m
  | .rgb ch, c => ch c

/-- The product `np.matmul` on a square operator and an `S × W` plane:
`res[i][j] = Σ_k psf[i][k] * image[k][j]`. -/
noncomputable def matmulE {S W : ℕ} (A : Matrix (Fin S) (Fin S) ℝ)
    (B : Matrix (Fin S) (Fin W) ℝ) : Matrix (Fin S) (Fin W) ℝ :=
  fun i j => ∑ k, A i k * B k j

/-- The function `apply_psf(config, image, psf)` (deblurring.py lines 119–126): grayscale
is one matrix product; color applies the same product to each of the 3
channels.  Both branches write into a freshly allocated `res`. -/
noncomputable def apply_psf {S W : ℕ} (psf : Matrix (Fin S) (Fin S) ℝ) :
    Image S W → Image S W
  | .gray m => .gray (matmulE psf m)
  | .rgb ch => .rgb (fun c => matmulE psf (ch c))

theorem matmulE_eq {S W : ℕ} (A : Matrix (Fin S) (Fin S) ℝ)
    (B : Matrix (Fin S) (Fin W) ℝ) : matmulE A B = A * B := by
  ext i j
  rw [Matrix.mul_apply]
  rfl

/-- C8: `apply_psf` keeps the shape of the input (by construction it returns
the same constructor with the same `S × W` planes); grayscale is the standard
matrix product `operator × image`; color applies that product independently
to each of the 3 channels; and the product acts along the row axis only —
column `j` of the result depends only on column `j` of the input. -/
theorem apply_psf_spec {S W : ℕ} (psf : Matrix (Fin S) (Fin S) ℝ)
    (m m' : Matrix (Fin S) (Fin W) ℝ) (ch : Fin 3 → Matrix (Fin S) (Fin W) ℝ)
    (j : Fin W) (hcol : ∀ k, m k j = m' k j) :
    apply_psf psf (Image.gray m) = Image.gray (psf * m) ∧
    apply_psf psf (Image.rgb ch) = Image.rgb (fun c => psf * ch c) ∧
    ∀ i, matmulE psf m i j = matmulE psf m' i j := by
  refine ⟨?_, ?_, ?_⟩
  · show Image.gray (matmulE psf m) = Image.gray (psf * m)
    rw [matmulE_eq]
  · show Image.rgb (fun c => matmulE psf (ch c)) = Image.rgb (fun c => psf * ch c)
    rw [show (fun c => matmulE psf (ch c)) = (fun c => psf * ch c) from
      funext fun c => matmulE_eq psf (ch c)]
  · intro i
    unfold matmulE
    exact Finset.sum_congr rfl (fun k _ => by rw [hcol k])

/-- Witness for C8 at `S = W = 1`. -/
theorem apply_psf_spec_witness :
    apply_psf 1 (Image.gray (0 : Matrix (Fin 1) (Fin 1) ℝ)) = Image.gray (1 * 0) ∧
    apply_psf 1 (Image.rgb (fun _ => (0 : Matrix (Fin 1) (Fin 1) ℝ)))
      = Image.rgb (fun _ => 1 * 0) ∧
    ∀ i : Fin 1, matmulE (1 : Matrix (Fin 1) (Fin 1) ℝ) (0 : Matrix (Fin 1) (Fin 1) ℝ) i 0
      = matmulE (1 : Matrix (Fin 1) (Fin 1) ℝ) (0 : Matrix (Fin 1) (Fin 1) ℝ) i 0 :=
  apply_psf_spec 1 0 0 (fun _ => 0) 0 (fun _ => rfl)

open scoped Classical in
/-- The routine `np.linalg.inv(M)`: raises LinAlgError("Singular matrix") iff `M` is
exactly singular (LAPACK fails on a zero pivot), and otherwise returns the
inverse; in exact arithmetic that is `det M = 0` versus the true matrix
inverse. -/
noncomputable def linalg_inv {m : ℕ} (M : Matrix (Fin m) (Fin m) ℝ) :
    Except PyErr (Matrix (Fin m) (Fin m) ℝ) :=
  if M.det = 0 then .error .linAlgSingular else .ok M⁻¹

/-- The matrix `sig_2d` (deblurring.py lines 164–167): the dense square matrix with the
singular values `sig[i]` placed on the diagonal of a zero matrix. -/
noncomputable def sig2d {m : ℕ} (sig : Fin m → ℝ) : Matrix (Fin m) (Fin m) ℝ :=
  Matrix.diagonal sig

/-- The inversion step of `image_deblurring` (deblurring.py lines 162–169):
given the SVD factors `u, sig, vT` returned for the operator, build `sig_2d`,
invert it with `np.linalg.inv`, and form
`psf_inverse = vT.transpose() @ inv(sig_2d) @ u.transpose()`. -/
noncomputable def invert_operator {m : ℕ} (u : Matrix (Fin m) (Fin m) ℝ)
    (sig : Fin m → ℝ) (vT : Matrix (Fin m) (Fin m) ℝ) :
    Except PyErr (Matrix (Fin m) (Fin m) ℝ) :=
  match linalg_inv (sig2d sig) with
  | .error e => .error e
  | .ok si => .ok (vT.transpose * si * u.transpose)

theorem linalg_inv_singular {m : ℕ} (M : Matrix (Fin m) (Fin m) ℝ)
    (h : M.det = 0) : linalg_inv M = .error .linAlgSingular := by
  unfold linalg_inv
  rw [if_pos h]

theorem linalg_inv_ok {m : ℕ} (M : Matrix (Fin m) (Fin m) ℝ)
    (h : M.det ≠ 0) : linalg_inv M = .ok M⁻¹ := by
  unfold linalg_inv
  rw [if_neg h]

/-- C5 counterexample: the claim says a numerically negligible singular value
makes the inversion step fail with a `SingularOperator` error; but with
singular values `(1, 2⁻¹⁰⁰)` — the second far below double-precision machine
epsilon `2⁻⁵²` relative to the first — the inversion succeeds and returns a
matrix (`np.linalg.inv` only raises on an exactly singular matrix; diagonal
powers of two are exact in floating point, so the embedded exact arithmetic
agrees with the float run here). -/
theorem tiny_singular_value_inverts :
    (invert_operator (1 : Matrix (Fin 2) (Fin 2) ℝ)
      (fun i => if i = 0 then 1 else (1 / 2 ^ 100 : ℝ)) 1).isOk = true := by
  unfold invert_operator
  rw [linalg_inv_ok]
  · rfl
  · rw [sig2d, Matrix.det_diagonal]
    rw [Fin.prod_univ_two]
    norm_num

/-- C5 (amended): only an exactly-zero singular value makes the inversion
step fail — it then raises numpy's LinAlgError (the `SingularOperator`
failure mode) and no matrix (hence nothing containing Inf/NaN) is returned;
a nonzero but numerically negligible singular value does not fail. -/
theorem invert_operator_zero_singular {m : ℕ} (u : Matrix (Fin m) (Fin m) ℝ)
    (sig : Fin m → ℝ) (vT : Matrix (Fin m) (Fin m) ℝ) (i : Fin m)
    (hz : sig i = 0) :
    invert_operator u sig vT = .error .linAlgSingular := by
  unfold invert_operator
  rw [linalg_inv_singular]
  rw [sig2d, Matrix.det_diagonal]
  exact Finset.prod_eq_zero (Finset.mem_univ i) hz

/-- Witness for the amended C5 at singular values `(0, 1)`. -/
theorem invert_operator_zero_singular_witness :
    invert_operator (1 : Matrix (Fin 2) (Fin 2) ℝ)
      (fun i => if i = 0 then 0 else 1) 1 = .error .linAlgSingular :=
  invert_operator_zero_singular 1 (fun i => if i = 0 then 0 else 1) 1 0 (by simp)

/-- C1: noiseless round trip.  For any operator given by its SVD
`psf = u · Σ · vT` (`u`, `vT` orthogonal, `Σ = sig2d sig` diagonal) that is
well-conditioned (every singular value nonzero — in exact arithmetic,
"bounded away from zero"), the inversion step succeeds, and applying the
built inverse `vTᵀ · Σ⁻¹ · uᵀ` to the blurred image recovers the original
image exactly: the composition of the forward blur and the SVD inverse is
the identity, for grayscale and color images alike. -/
theorem svd_roundtrip_identity {S W : ℕ} (u vT : Matrix (Fin S) (Fin S) ℝ)
    (sig : Fin S → ℝ) (img : Image S W)
    (hU : u.transpose * u = 1) (hV : vT * vT.transpose = 1)
    (hsig : ∀ i, sig i ≠ 0) :
    ∃ Minv, invert_operator u sig vT = .ok Minv ∧
      apply_psf Minv (apply_psf (u * sig2d sig * vT) img) = img := by
  have hdet : (sig2d sig).det ≠ 0 := by
    rw [sig2d, Matrix.det_diagonal]
    exact Finset.prod_ne_zero_iff.mpr (fun i _ => hsig i)
  refine ⟨vT.transpose * (sig2d sig)⁻¹ * u.transpose, ?_, ?_⟩
  · unfold invert_operator
    rw [linalg_inv_ok _ hdet]
  · have h1 : u.transpose * (u * (sig2d sig * vT)) = sig2d sig * vT := by
      rw [← Matrix.mul_assoc, hU, Matrix.one_mul]
    have h2 : (sig2d sig)⁻¹ * (sig2d sig * vT) = vT := by
      rw [← Matrix.mul_assoc, Matrix.nonsing_inv_mul _ (isUnit_iff_ne_zero.mpr hdet),
        Matrix.one_mul]
    have h3 : vT.transpose * vT = 1 := Matrix.mul_eq_one_comm.mp hV
    have hkey : vT.transpose * (sig2d sig)⁻¹ * u.transpose * (u * sig2d sig * vT)
        = 1 := by
      simp only [Matrix.mul_assoc]
      rw [h1, h2, h3]
    cases img with
    | gray m =>
      show Image.gray (matmulE _ (matmulE _ m)) = Image.gray m
      rw [matmulE_eq, matmulE_eq, ← Matrix.mul_assoc, hkey, Matrix.one_mul]
    | rgb ch =>
      show Image.rgb (fun c => matmulE _ (matmulE _ (ch c))) = Image.rgb ch
      rw [show (fun c => matmulE (vT.transpose * (sig2d sig)⁻¹ * u.transpose)
            (matmulE (u * sig2d sig * vT) (ch c))) = ch from ?_]
      funext c
      rw [matmulE_eq, matmulE_eq, ← Matrix.mul_assoc, hkey, Matrix.one_mul]

/-- Witness for C1 at `S = W = 1`: identity orthogonal factors, singular
value 2, constant image 3. -/
theorem svd_roundtrip_identity_witness :
    ∃ Minv, invert_operator (1 : Matrix (Fin 1) (Fin 1) ℝ) (fun _ => 2) 1 = .ok Minv ∧
      apply_psf Minv (apply_psf ((1 : Matrix (Fin 1) (Fin 1) ℝ) * sig2d (fun _ => 2) * 1)
        (Image.gray (fun _ _ => (3 : ℝ)) : Image 1 1))
      = (Image.gray (fun _ _ => (3 : ℝ)) : Image 1 1) :=
  svd_roundtrip_identity 1 1 (fun _ => 2) (Image.gray (fun _ _ => (3 : ℝ)) : Image 1 1)
    (by rw [Matrix.transpose_one, Matrix.one_mul])
    (by rw [Matrix.transpose_one, Matrix.one_mul])
    (fun _ => by norm_num)

/-! ### Noise Injector (image_noise.py and deblurring.py lines 152–160)

`np.random.normal(mean, sigma, (H, W))` is the location-scale transform of
the generator's stream of standard normal draws: entry `(i, j)` of the `k`-th
sampled field is `mean + sigma * g (off + i*W + j)` where `g : ℕ → ℝ` is the
stream and `off` counts the `H*W` draws consumed by each earlier call (numpy
fills row-major).  `.astype('uint8')` truncates each float toward zero and
keeps the low 8 bits of the resulting integer (negative values wrap modulo
256). -/

open scoped Classical in
/-- Truncation toward zero of a real number (C's float-to-integer cast). -/
noncomputable def truncZ (x : ℝ) : ℤ :=
  if 0 ≤ x then ⌊x⌋ else ⌈x⌉

/-- The numpy `float64 → uint8` conversion: truncate toward zero, wrap
modulo 256, re-read as a real sample. -/
noncomputable def uint8cast (x : ℝ) : ℝ :=
  ((truncZ x % 256 : ℤ) : ℝ)

/-- The sampler `gaussian_noise(mean, var, (H, W))` (image_noise.py lines 120–136) as
the field sampled from stream offset `off`: `sigma = var ** 0.5` and the
normal draw at `(i, j)`, cast to uint8. -/
noncomputable def gaussian_noise (mean var : ℝ) (H W : ℕ) (g : ℕ → ℝ)
    (off : ℕ) : Matrix (Fin H) (Fin W) ℝ :=
  fun i j => uint8cast (mean + Real.sqrt var * g (off + i.val * W + j.val))

/-- The configuration fields consumed by the noise step (`parse_config`
reads `add_noise`, `mean`, `var`, `color` into the config dict). -/
structure Config where
  add_noise : Bool
  mean : ℝ
  var : ℝ
  color : Bool

/-- The noise-injection step of `image_deblurring` (deblurring.py lines
152–160).  The local variables `mean = 0` and `var = 0.1` shadow the
configured values, exactly as in the source; with `color`, the loop calls
`gaussian_noise` once per channel, each call consuming the next `S*W` draws
of the generator; `+=` adds the field to the blurred image. -/
noncomputable def noise_stage {S W : ℕ} (cfg : Config) (blurred : Image S W)
    (g : ℕ → ℝ) : Image S W :=
  if cfg.add_noise then
    match blurred with
    | .gray m => .gray (m + gaussian_noise 0 (1 / 10) S W g 0)
    | .rgb ch => .rgb (fun c => ch c + gaussian_noise 0 (1 / 10) S W g (c.val * (S * W)))
  else blurred

/-- C6: configurations that differ only in the configured noise mean and
variance produce identical noise from the same random source — the injection
step uses the hard-coded `mean = 0`, `variance = 0.1` and the configured
values have no influence. -/
theorem noise_ignores_configured_params {S W : ℕ} (a : Bool) (m₁ v₁ m₂ v₂ : ℝ)
    (col : Bool) (blurred : Image S W) (g : ℕ → ℝ) :
    noise_stage (Config.mk a m₁ v₁ col) blurred g
      = noise_stage (Config.mk a m₂ v₂ col) blurred g := rfl

/-- C10: every element of the field returned by `gaussian_noise` is an
integer in `[0, 255]`: the real Gaussian draw is truncated toward zero and
wrapped modulo 256, so the added field is quantized and non-negative rather
than real-valued zero-mean noise. -/
theorem gaussian_noise_uint8_range (mean var : ℝ) (H W : ℕ) (g : ℕ → ℝ)
    (off : ℕ) (i : Fin H) (j : Fin W) :
    ∃ k : ℤ, gaussian_noise mean var H W g off i j = (k : ℝ) ∧
      0 ≤ k ∧ k < 256 ∧
      k = truncZ (mean + Real.sqrt var * g (off + i.val * W + j.val)) % 256 := by
  refine ⟨truncZ (mean + Real.sqrt var * g (off + i.val * W + j.val)) % 256,
    rfl, ?_, ?_, rfl⟩
  · exact Int.emod_nonneg _ (by norm_num)
  · exact Int.emod_lt_of_pos _ (by norm_num)

/-- A concrete random stream: the first standard-normal draw is `√10`, all
later draws are 0. -/
noncomputable def g7 : ℕ → ℝ := fun k => if k = 0 then Real.sqrt 10 else 0

/-- C7 counterexample: the claim says a single 2-D noise field is sampled
and that same field is added to each of the 3 channels.  On a 1×1 all-zero
color image with the stream `g7`, channel 0 receives noise 1 (first draw)
while channel 1 receives noise 0 (the loop's second `gaussian_noise` call
consumes fresh draws), so the channels receive different fields. -/
theorem color_noise_not_shared_field :
    (noise_stage (Config.mk true 0 0 true)
      (Image.rgb (fun _ => 0) : Image 1 1) g7).channel 0 0 0 = 1 ∧
    (noise_stage (Config.mk true 0 0 true)
      (Image.rgb (fun _ => 0) : Image 1 1) g7).channel 1 0 0 = 0 ∧
    (noise_stage (Config.mk true 0 0 true)
        (Image.rgb (fun _ => 0) : Image 1 1) g7).channel 0
      ≠ (noise_stage (Config.mk true 0 0 true)
        (Image.rgb (fun _ => 0) : Image 1 1) g7).channel 1 := by
  have hsq : Real.sqrt (1 / 10) * Real.sqrt 10 = 1 := by
    rw [← Real.sqrt_mul (by norm_num : (0 : ℝ) ≤ 1 / 10)]
    rw [show (1 / 10 : ℝ) * 10 = 1 by norm_num, Real.sqrt_one]
  have h0 : (noise_stage (Config.mk true 0 0 true)
      (Image.rgb (fun _ => 0) : Image 1 1) g7).channel 0 0 0 = 1 := by
    show (0 : Matrix (Fin 1) (Fin 1) ℝ) 0 0
        + uint8cast (0 + Real.sqrt (1 / 10) * g7 ((0 : Fin 3).val * (1 * 1)
          + (0 : Fin 1).val * 1 + (0 : Fin 1).val)) = 1
    have : g7 ((0 : Fin 3).val * (1 * 1) + (0 : Fin 1).val * 1 + (0 : Fin 1).val)
        = Real.sqrt 10 := by
      show (if (0 : ℕ) = 0 then Real.sqrt 10 else 0) = Real.sqrt 10
      rw [if_pos rfl]
    rw [this]
    rw [zero_add, hsq]
    show (0 : ℝ) + uint8cast 1 = 1
    rw [zero_add]
    unfold uint8cast truncZ
    rw [if_pos (by norm_num : (0 : ℝ) ≤ 1)]
    norm_num
  have h1 : (noise_stage (Config.mk true 0 0 true)
      (Image.rgb (fun _ => 0) : Image 1 1) g7).channel 1 0 0 = 0 := by
    show (0 : Matrix (Fin 1) (Fin 1) ℝ) 0 0
        + uint8cast (0 + Real.sqrt (1 / 10) * g7 ((1 : Fin 3).val * (1 * 1)
          + (0 : Fin 1).val * 1 + (0 : Fin 1).val)) = 0
    have : g7 ((1 : Fin 3).val * (1 * 1) + (0 : Fin 1).val * 1 + (0 : Fin 1).val)
        = 0 := by
      show (if (1 : ℕ) = 0 then Real.sqrt 10 else 0) = 0
      rw [if_neg (by norm_num)]
    rw [this]
    show (0 : ℝ) + uint8cast (0 + Real.sqrt (1 / 10) * 0) = 0
    rw [mul_zero, add_zero, zero_add]
    unfold uint8cast truncZ
    rw [if_pos (le_refl (0 : ℝ))]
    norm_num
  refine ⟨h0, h1, fun he => ?_⟩
  rw [show ((noise_stage (Config.mk true 0 0 true)
      (Image.rgb (fun _ => 0) : Image 1 1) g7).channel 0 0 0 : ℝ)
    = (noise_stage (Config.mk true 0 0 true)
      (Image.rgb (fun _ => 0) : Image 1 1) g7).channel 1 0 0 from by rw [he]] at h0
  rw [h1] at h0
  exact absurd h0 (by norm_num)

/-- C7 (amended): when the image is color and noise injection is enabled,
three independent `H×W` Gaussian noise fields are sampled — one
`gaussian_noise` call per channel, each consuming the next `S*W` draws of
the generator — all with the hard-coded `mean = 0`, `variance = 0.1`, and
channel `c` receives the field of the `c`-th call. -/
theorem color_noise_per_channel {S W : ℕ} (ch : Fin 3 → Matrix (Fin S) (Fin W) ℝ)
    (g : ℕ → ℝ) (m v : ℝ) (c : Fin 3) :
    (noise_stage (Config.mk true m v true) (Image.rgb ch) g).channel c
      = ch c + gaussian_noise 0 (1 / 10) S W g (c.val * (S * W)) := rfl

/-! ### Array identity and mutation (C9)

To talk about "newly allocated" versus "mutated in place", numpy arrays are
given identities: a store maps array ids to `S × W` planes and counts
allocations.  `np.zeros_like` and `np.matmul` allocate fresh arrays; the
`+=` of the noise step (deblurring.py lines 158/160) writes through the
existing id.  The grayscale pipeline slice is modelled; color is the same
pattern per channel. -/

/-- A store of numpy arrays: allocation counter and contents per id. -/
structure St (S W : ℕ) where
  next : ℕ
  mem : ℕ → Matrix (Fin S) (Fin W) ℝ

/-- Allocate a fresh array holding `v`; returns its id. -/
noncomputable def alloc {S W : ℕ} (v : Matrix (Fin S) (Fin W) ℝ) (s : St S W) :
    ℕ × St S W :=
  (s.next, St.mk (s.next + 1) (fun id => if id = s.next then v else s.mem id))

/-- Write `v` through an existing id (in-place mutation, no allocation). -/
noncomputable def storeAt {S W : ℕ} (id : ℕ) (v : Matrix (Fin S) (Fin W) ℝ)
    (s : St S W) : St S W :=
  St.mk s.next (fun i => if i = id then v else s.mem i)

/-- The grayscale branch of `apply_psf` (deblurring.py lines 119 and 124)
with allocations made explicit: `res = np.zeros_like(image)` allocates, then
`res = np.matmul(psf, image)` allocates another fresh array and rebinds
`res`; the input array is only read. -/
noncomputable def apply_psf_st {S W : ℕ} (psf : Matrix (Fin S) (Fin S) ℝ)
    (imgId : ℕ) (s : St S W) : ℕ × St S W :=
  let z := alloc 0 s
  alloc (matmulE psf (z.2.mem imgId)) z.2

/-- The grayscale noise step (deblurring.py line 160):
`blurred_image += gaussian_noise(mean, var, image_shape)` adds the sampled
field to the blurred array through its existing id. -/
noncomputable def noise_st {S W : ℕ} (g : ℕ → ℝ) (blurId : ℕ) (s : St S W) :
    St S W :=
  storeAt blurId (s.mem blurId + gaussian_noise 0 (1 / 10) S W g 0) s

/-- Casting via `uint8cast` the draw `√10` scaled by the hard-coded `σ = √0.1` is
exactly 1. -/
theorem uint8cast_sqrt_ten : uint8cast (0 + Real.sqrt (1 / 10) * Real.sqrt 10) = 1 := by
  rw [zero_add, ← Real.sqrt_mul (by norm_num : (0 : ℝ) ≤ 1 / 10)]
  rw [show (1 / 10 : ℝ) * 10 = 1 by norm_num, Real.sqrt_one]
  unfold uint8cast truncZ
  rw [if_pos (by norm_num : (0 : ℝ) ≤ 1)]
  norm_num

/-- The concrete initial store of the C9 run: allocation counter 1, the
1×1 zero image stored at id 0. -/
noncomputable def stInit : St 1 1 := St.mk 1 (fun _ => 0)

/-- C9 counterexample: the claim says every stage — including noise
injection — returns a newly allocated array and leaves the array it received
unchanged.  In a concrete grayscale run (1×1 zero image at id 0, identity
operator, stream `g7`), the noise step allocates nothing (the allocation
counter is unchanged) and overwrites the blurred array through the id it
received: the blurred array held 0 after the blur stage and holds 1 after
noise injection. -/
theorem noise_stage_mutates_counterexample :
    (noise_st g7 (apply_psf_st (1 : Matrix (Fin 1) (Fin 1) ℝ) 0 stInit).1
        (apply_psf_st (1 : Matrix (Fin 1) (Fin 1) ℝ) 0 stInit).2).next
      = (apply_psf_st (1 : Matrix (Fin 1) (Fin 1) ℝ) 0 stInit).2.next ∧
    (apply_psf_st (1 : Matrix (Fin 1) (Fin 1) ℝ) 0 stInit).2.mem
        (apply_psf_st (1 : Matrix (Fin 1) (Fin 1) ℝ) 0 stInit).1 0 0
      = 0 ∧
    (noise_st g7 (apply_psf_st (1 : Matrix (Fin 1) (Fin 1) ℝ) 0 stInit).1
        (apply_psf_st (1 : Matrix (Fin 1) (Fin 1) ℝ) 0 stInit).2).mem
        (apply_psf_st (1 : Matrix (Fin 1) (Fin 1) ℝ) 0 stInit).1 0 0
      = 1 := by
  have hb1 : (apply_psf_st (1 : Matrix (Fin 1) (Fin 1) ℝ) 0 stInit).1 = 2 := rfl
  have hmem2 : (apply_psf_st (1 : Matrix (Fin 1) (Fin 1) ℝ) 0 stInit).2.mem 2 = 0 := by
    show matmulE (1 : Matrix (Fin 1) (Fin 1) ℝ) (stInit.mem 0) = 0
    ext i j
    unfold matmulE stInit
    simp
  have hnmem2 : (noise_st g7 2 (apply_psf_st (1 : Matrix (Fin 1) (Fin 1) ℝ) 0 stInit).2).mem 2
      = (apply_psf_st (1 : Matrix (Fin 1) (Fin 1) ℝ) 0 stInit).2.mem 2
        + gaussian_noise 0 (1 / 10) 1 1 g7 0 := by
    show (if (2 : ℕ) = 2
        then (apply_psf_st (1 : Matrix (Fin 1) (Fin 1) ℝ) 0 stInit).2.mem 2
          + gaussian_noise 0 (1 / 10) 1 1 g7 0
        else (apply_psf_st (1 : Matrix (Fin 1) (Fin 1) ℝ) 0 stInit).2.mem 2) = _
    rw [if_pos rfl]
  have hgn : gaussian_noise 0 (1 / 10) 1 1 g7 0 0 0 = 1 := by
    show uint8cast (0 + Real.sqrt (1 / 10)
      * g7 (0 + (0 : Fin 1).val * 1 + (0 : Fin 1).val)) = 1
    have hg : g7 (0 + (0 : Fin 1).val * 1 + (0 : Fin 1).val) = Real.sqrt 10 := by
      show (if (0 : ℕ) = 0 then Real.sqrt 10 else 0) = Real.sqrt 10
      rw [if_pos rfl]
    rw [hg]
    exact uint8cast_sqrt_ten
  refine ⟨rfl, ?_, ?_⟩
  · rw [hb1, hmem2]
    rfl
  · rw [hb1, hnmem2, hmem2, zero_add]
    exact hgn

/-- C9 (amended): the blur application and the deblurring application (the
same `apply_psf`) each return a newly allocated array (the next fresh id)
and leave every previously existing array — in particular the one they
received — unchanged; the noise injection stage allocates nothing and
instead mutates the blurred array in place, adding the sampled field through
the id it received (`§4.4`'s "added in place"). -/
theorem pipeline_allocation_amended {S W : ℕ} (psf : Matrix (Fin S) (Fin S) ℝ)
    (imgId : ℕ) (g : ℕ → ℝ) (blurId : ℕ) (s : St S W) (idA idB : ℕ)
    (h1 : idA ≠ s.next) (h2 : idA ≠ s.next + 1) (h3 : idB ≠ blurId) :
    (apply_psf_st psf imgId s).1 = s.next + 1 ∧
    (apply_psf_st psf imgId s).2.next = s.next + 2 ∧
    (apply_psf_st psf imgId s).2.mem idA = s.mem idA ∧
    (noise_st g blurId s).next = s.next ∧
    (noise_st g blurId s).mem idB = s.mem idB ∧
    (noise_st g blurId s).mem blurId
      = s.mem blurId + gaussian_noise 0 (1 / 10) S W g 0 := by
  refine ⟨rfl, rfl, ?_, rfl, ?_, ?_⟩
  · show (if idA = s.next + 1 then _ else if idA = s.next then _ else s.mem idA)
      = s.mem idA
    rw [if_neg h2, if_neg h1]
  · show (if idB = blurId then _ else s.mem idB) = s.mem idB
    rw [if_neg h3]
  · show (if blurId = blurId then s.mem blurId + gaussian_noise 0 (1 / 10) S W g 0
      else s.mem blurId) = s.mem blurId + gaussian_noise 0 (1 / 10) S W g 0
    rw [if_pos rfl]

/-- Witness for the amended C9 in the concrete run of the counterexample
store. -/
theorem pipeline_allocation_amended_witness :
    (apply_psf_st (1 : Matrix (Fin 1) (Fin 1) ℝ) 0 stInit).1 = 1 + 1 ∧
    (apply_psf_st (1 : Matrix (Fin 1) (Fin 1) ℝ) 0 stInit).2.next = 1 + 2 ∧
    (apply_psf_st (1 : Matrix (Fin 1) (Fin 1) ℝ) 0 stInit).2.mem 0
      = stInit.mem 0 ∧
    (noise_st g7 2 stInit).next = 1 ∧
    (noise_st g7 2 stInit).mem 0
      = stInit.mem 0 ∧
    (noise_st g7 2 stInit).mem 2
      = stInit.mem 2
        + gaussian_noise 0 (1 / 10) 1 1 g7 0 :=
  pipeline_allocation_amended 1 0 g7 2 stInit 0 0
    (by norm_num [stInit]) (by norm_num [stInit]) (by norm_num)

end Deblur
